import Mathlib

/-!
DQ Robotics: dual-quaternion operators, the control-loop stop test and the
SVD-based linear-algebra utilities.

Shallow embedding of

* `src/unit_testing/DQTest.cpp` (the `DQ` operators exercised by the tests),
* `src/examples/schunk_hinfinitycontrol_example.cpp` (end-of-control check),
* `src/src/utils/DQ_LinearAlgebra.cpp` (`pinv`, `svd`, `rank`).

C++ `double` values are embedded in two ways.  Where a statement is about the
rounding behaviour of `double` itself (exact `==` on sums) the carrier is
`Double`, a model of IEEE-754 binary64 addition.  Everywhere else the carrier
is an exact ordered field.
-/

namespace DQ_robotics

/-! ## IEEE-754 binary64 values and their addition -/

/-- A binary64 value.  Every finite binary64 number is an integer multiple of
the smallest subnormal `2^(-1074)`; `finite n` is the number `n * 2^(-1074)`.
The two signed zeros compare equal under `==` and are identified. -/
inductive Double where
  | finite (n : Int)
  | inf (negative : Bool)
  | nan
  deriving DecidableEq, Repr

namespace Double

/-- Number of bits of the significand of a binary64 number. -/
def precision : Nat := 53

/-- First magnitude, in units of `2^(-1074)`, that is no longer finite:
`2^1024 = 2^2098 * 2^(-1074)`. -/
@[irreducible] def overflowThreshold : Nat := 2 ^ 2098

/-- The integer one in units of `2^(-1074)`. -/
@[irreducible] def unit : Nat := 2 ^ 1074

/-- Number of low-order bits that have to be dropped from the magnitude `a`
so that at most 53 significant bits remain: `a` is halved until it is below
`2^53`.  The first argument bounds the number of halvings; `a` itself is
always enough. -/
def excessBits : Nat → Nat → Nat
  | 0, _ => 0
  | fuel + 1, a => if a < 2 ^ precision then 0 else excessBits fuel (a / 2) + 1

/-- Round a magnitude given in units of `2^(-1074)` to the nearest magnitude
whose binary expansion has at most 53 significant bits, ties to even (the
default IEEE-754 rounding mode). -/
def roundMagnitude (a : Nat) : Nat :=
  let shift := excessBits a a
  if shift = 0 then a
  else
    let kept := a / 2 ^ shift
    let rest := a % 2 ^ shift
    let half := 2 ^ (shift - 1)
    let up := if rest > half ∨ (rest = half ∧ kept % 2 = 1) then 1 else 0
    (kept + up) * 2 ^ shift

/-- Round an exact value, in units of `2^(-1074)`, to binary64. -/
def round (z : Int) : Double :=
  let r := roundMagnitude z.natAbs
  if r ≥ overflowThreshold then inf (decide (z < 0))
  else finite (if z < 0 then -(r : Int) else (r : Int))

/-- The binary64 number nearest to the integer `z`. -/
def ofInt (z : Int) : Double := round (z * (unit : Int))

/-- Addition of two binary64 values: the exact sum, rounded. -/
def add : Double → Double → Double
  | nan, _ => nan
  | _, nan => nan
  | inf a, inf b => if a = b then inf a else nan
  | inf a, finite _ => inf a
  | finite _, inf b => inf b
  | finite a, finite b => round (a + b)

/-- Negation of a binary64 value (always exact). -/
def neg : Double → Double
  | nan => nan
  | inf a => inf (!a)
  | finite a => finite (-a)

/-- Subtraction of two binary64 values: the exact difference, rounded. -/
def sub (x y : Double) : Double := add x (neg y)

/-- The C++ comparison `x == y` on binary64 values: a NaN equals nothing. -/
def eq : Double → Double → Bool
  | finite a, finite b => decide (a = b)
  | inf a, inf b => decide (a = b)
  | _, _ => false

/-- A value that is neither an infinity nor a NaN. -/
def isFinite : Double → Bool
  | finite _ => true
  | _ => false

instance : Add Double := ⟨add⟩
instance : Sub Double := ⟨sub⟩
instance : Neg Double := ⟨neg⟩

end Double

/-! ## The dual-quaternion type -/

/-- Dual quaternion: the 8-vector `q` of its coefficients, primary part in
`q 0 .. q 3`, dual part in `q 4 .. q 7`. -/
structure DQ (α : Type) where
  q : Fin 8 → α

namespace DQ

variable {α : Type}

/-- The constructor from eight scalars used throughout `DQTest.cpp`. -/
def mk8 (q0 q1 q2 q3 q4 q5 q6 q7 : α) : DQ α := ⟨![q0, q1, q2, q3, q4, q5, q6, q7]⟩

/-- Modelled from the spec: `DQ::operator+` (DQ.cpp is not among the sources);
the sum of two dual quaternions is the sum of their 8-vectors. -/
def add [Add α] (p r : DQ α) : DQ α := ⟨fun i => p.q i + r.q i⟩

/-- Modelled from the spec: `DQ::operator-` (DQ.cpp is not among the sources);
the difference of two dual quaternions is the difference of their 8-vectors. -/
def sub [Sub α] (p r : DQ α) : DQ α := ⟨fun i => p.q i - r.q i⟩

instance [Add α] : Add (DQ α) := ⟨add⟩
instance [Sub α] : Sub (DQ α) := ⟨sub⟩

/-- Modelled from the spec: `DQ::operator==` (DQ.cpp is not among the
sources); exact comparison of the eight components, no tolerance.  The
component comparison is a parameter, so that it can be the binary64 `==`. -/
def eqWith (ceq : α → α → Bool) (p r : DQ α) : Bool :=
  (List.finRange 8).all fun i => ceq (p.q i) (r.q i)

/-- Dual-quaternion `==` over binary64 components. -/
def beqDouble (p r : DQ Double) : Bool := eqWith Double.eq p r

/-- Every component is a finite binary64 number. -/
def allFinite (p : DQ Double) : Bool :=
  (List.finRange 8).all fun i => (p.q i).isFinite

/-- The quaternion `a + b i + c j + d k`. -/
def quat [CommRing α] (a b c d : α) : Quaternion α := ⟨a, b, c, d⟩

/-- The primary part as a quaternion. -/
def P [CommRing α] (p : DQ α) : Quaternion α := quat (p.q 0) (p.q 1) (p.q 2) (p.q 3)

/-- The dual part as a quaternion. -/
def D [CommRing α] (p : DQ α) : Quaternion α := quat (p.q 4) (p.q 5) (p.q 6) (p.q 7)

/-- The 4-vector of coefficients of a quaternion. -/
def vec4 [CommRing α] (h : Quaternion α) : Fin 4 → α := ![h.re, h.imI, h.imJ, h.imK]

/-- Modelled from the spec: `DQ::operator*` (DQ.cpp is not among the sources);
primary parts multiply via the quaternion product, dual parts combine as
`p1*d2 + d1*p2`. -/
def mul [CommRing α] (p r : DQ α) : DQ α :=
  let pp : Quaternion α := p.P * r.P
  let dd : Quaternion α := p.P * r.D + p.D * r.P
  mk8 pp.re pp.imI pp.imJ pp.imK dd.re dd.imI dd.imJ dd.imK

instance [CommRing α] : Mul (DQ α) := ⟨mul⟩

/-- Modelled from the spec: `DQ::Hplus4` (DQ.cpp is not among the sources);
the fixed sign pattern of section 4.1 for the primary part `(a,b,c,d)`. -/
def Hplus4 [Neg α] (p : DQ α) : Matrix (Fin 4) (Fin 4) α :=
  !![p.q 0, -p.q 1, -p.q 2, -p.q 3;
     p.q 1,  p.q 0, -p.q 3,  p.q 2;
     p.q 2,  p.q 3,  p.q 0, -p.q 1;
     p.q 3, -p.q 2,  p.q 1,  p.q 0]

/-- Modelled from the spec: `DQ::Hminus4` (DQ.cpp is not among the sources);
the operator of right multiplication, the `Hplus4` pattern with the signs of
the off-diagonal entries of the lower-right 3x3 block flipped. -/
def Hminus4 [Neg α] (p : DQ α) : Matrix (Fin 4) (Fin 4) α :=
  !![p.q 0, -p.q 1, -p.q 2, -p.q 3;
     p.q 1,  p.q 0,  p.q 3, -p.q 2;
     p.q 2, -p.q 3,  p.q 0,  p.q 1;
     p.q 3,  p.q 2, -p.q 1,  p.q 0]

/-- The dual quaternion `DQ(a,b,c,d,e,f,g,h)` written with integer literals,
as binary64 components. -/
def ofInts (a b c d e f g h : Int) : DQ Double :=
  mk8 (Double.ofInt a) (Double.ofInt b) (Double.ofInt c) (Double.ofInt d)
    (Double.ofInt e) (Double.ofInt f) (Double.ofInt g) (Double.ofInt h)

/-- The component-wise binary64 sum is computed without rounding: both
operands are finite and the exact sum is a binary64 number. -/
def sumIsExact (p r : DQ Double) : Bool :=
  (List.finRange 8).all fun i =>
    match p.q i, r.q i with
    | Double.finite a, Double.finite b => decide (Double.round (a + b) = Double.finite (a + b))
    | _, _ => false

end DQ

/-! ## The end-of-control check of the Schunk example

Lines 57-67 of `schunk_hinfinitycontrol_example.cpp`.  The pose difference is
an input: the controller and the kinematics are not among the sources.  Its
components are taken to be finite numbers, on which `fabs` and `>` are exact,
so the carrier is an ordered field. -/

section ControlLoop

variable {K : Type} [LinearOrderedField K]

/-- The literal `1.e-10` of the example. -/
def control_threshold : K := 1 / 10 ^ 10

/-- The value of `continue_control` after the end-of-control check: it is
reset to `false` and set to `true` by every component `i = 0..7` with
`fabs(eff_pose_difference.q(i,0)) > control_threshold`. -/
def endOfControlCheck (control_threshold : K) (eff_pose_difference : DQ K) : Bool :=
  (List.finRange 8).foldl
    (fun continue_control i =>
      if |eff_pose_difference.q i| > control_threshold then true else continue_control)
    false

/-- The infinity norm of the 8-vector of a dual quaternion. -/
def normInf (e : DQ K) : K :=
  Finset.univ.sup' ⟨(0 : Fin 8), Finset.mem_univ _⟩ fun i => |e.q i|

end ControlLoop

/-! ## Linear-algebra utilities (`DQ_LinearAlgebra.cpp`) -/

/-- An index or shape assertion of the matrix library that fails. -/
inductive Fault where
  | vectorIndex (index size : Nat)
  | matrixIndex (row col rows cols : Nat)
  | productShape (lhsCols rhsRows : Nat)
  deriving DecidableEq, Repr

/-- A dense matrix whose dimensions are run-time values (`Eigen::MatrixXd`). -/
structure MatrixXd (K : Type) where
  rows : Nat
  cols : Nat
  coeff : Matrix (Fin rows) (Fin cols) K

/-- A dense vector of run-time size (`Eigen::VectorXd`). -/
abbrev VectorXd (K : Type) := List K

section LinearAlgebra

variable {K : Type}

/-- The coefficient read `v(i)`, which asserts `i < v.size()`. -/
def VectorXd.coeff (v : VectorXd K) (i : Nat) : Except Fault K :=
  match v[i]? with
  | some x => .ok x
  | none => .error (.vectorIndex i v.length)

namespace MatrixXd

/-- The coefficient write `M(i,j) = v`, which asserts `i < rows` and
`j < cols`. -/
def setCoeff (M : MatrixXd K) (i j : Nat) (v : K) : Except Fault (MatrixXd K) :=
  if i < M.rows ∧ j < M.cols then
    .ok ⟨M.rows, M.cols, Matrix.of fun a b => if a.val = i ∧ b.val = j then v else M.coeff a b⟩
  else .error (.matrixIndex i j M.rows M.cols)

/-- The adjoint of a real matrix: its transpose. -/
def adjoint (M : MatrixXd K) : MatrixXd K := ⟨M.cols, M.rows, M.coeff.transpose⟩

/-- The product `A * B`, which asserts `A.cols() == B.rows()`. -/
def mul [Mul K] [AddCommMonoid K] (A B : MatrixXd K) : Except Fault (MatrixXd K) :=
  if h : A.cols = B.rows then
    .ok ⟨A.rows, B.cols, A.coeff * B.coeff.submatrix (Fin.cast h) id⟩
  else .error (.productShape A.cols B.rows)

/-- The square matrix `v.asDiagonal()`, of order `v.size()`. -/
def asDiagonal [Zero K] (v : VectorXd K) : MatrixXd K :=
  ⟨v.length, v.length, Matrix.diagonal fun i => v.get i⟩

/-- The matrix `MatrixXd::Zero(rows, cols)`. -/
def Zero [Zero K] (rows cols : Nat) : MatrixXd K := ⟨rows, cols, 0⟩

end MatrixXd

/-- What `JacobiSVD<MatrixXd>::compute(matrix, ComputeFullU | ComputeFullV)`
leaves in the decomposition object.  The decomposition itself is the matrix
library's; it is an input of the functions below. -/
structure JacobiSVD (K : Type) where
  matrixU : MatrixXd K
  singularValues : VectorXd K
  matrixV : MatrixXd K

/-- The constant `std::numeric_limits<double>::epsilon()`, `2^(-52)`. -/
def eps [Field K] : K := 1 / 2 ^ 52

variable [LinearOrderedField K]

/-- Lines 49-53 of `pinv` and 110-114 of `rank`: the tolerance
`max(rows,cols) * singular_values(0) * eps`. -/
def tolerance (num_rows num_cols : Nat) (singular_values : VectorXd K) : Except Fault K := do
  let max := if num_rows > num_cols then num_rows else num_cols
  let norm ← singular_values.coeff 0
  pure ((max : K) * norm * eps)

/-- Lines 43-61 of `pinv`: the matrix `svd_sigma_inverted` once the loop has
run. -/
def svd_sigma_inverted (svd : JacobiSVD K) (matrix : MatrixXd K) : Except Fault (MatrixXd K) := do
  let num_rows := matrix.rows
  let num_cols := matrix.cols
  let singular_values := svd.singularValues
  let tol ← tolerance num_rows num_cols singular_values
  (List.range singular_values.length).foldlM
    (fun sigma i => do
      let s ← singular_values.coeff i
      if s > tol then sigma.setCoeff i i (1 / s) else sigma.setCoeff i i 0)
    (MatrixXd.Zero num_cols num_rows)

/-- The function `pinv`; `svd` is the decomposition of `matrix` computed on
line 46. -/
def pinv (svd : JacobiSVD K) (matrix : MatrixXd K) : Except Fault (MatrixXd K) := do
  let sigma ← svd_sigma_inverted svd matrix
  let right ← sigma.mul svd.matrixU.adjoint
  svd.matrixV.mul right

/-- The function `svd`; `decomposition` is the decomposition of `matrix`
computed on line 84. -/
def svd (decomposition : JacobiSVD K) (_matrix : MatrixXd K) :
    MatrixXd K × MatrixXd K × MatrixXd K :=
  (decomposition.matrixU, MatrixXd.asDiagonal decomposition.singularValues,
    decomposition.matrixV)

/-- The product `U * S * V.adjoint()` of the doc comment of `svd`, for a
returned tuple `(U, S, V)`. -/
def reconstruct (usv : MatrixXd K × MatrixXd K × MatrixXd K) : Except Fault (MatrixXd K) := do
  let us ← usv.1.mul usv.2.1
  us.mul usv.2.2.adjoint

/-- The function `rank`; `svd` is the decomposition of `matrix` computed on
line 107 (only its singular values are used). -/
def rank (svd : JacobiSVD K) (matrix : MatrixXd K) : Except Fault Nat := do
  let num_rows := matrix.rows
  let num_cols := matrix.cols
  let singular_values := svd.singularValues
  let tol ← tolerance num_rows num_cols singular_values
  (List.range singular_values.length).foldlM
    (fun rank i => do
      let s ← singular_values.coeff i
      pure (if s > tol then rank + 1 else rank))
    0

/-- The `rows x cols` matrix with `d 0, d 1, ...` on its main diagonal. -/
def rectDiag (rows cols : Nat) (d : Nat → K) : Matrix (Fin rows) (Fin cols) K :=
  Matrix.of fun i j => if i.val = j.val then d i.val else 0

/-- The value of `tol` when the vector of singular values is not empty. -/
def tol (num_rows num_cols : Nat) (singular_values : VectorXd K) : K :=
  ((if num_rows > num_cols then num_rows else num_cols : Nat) : K)
    * singular_values.getD 0 0 * eps

/-- The diagonal entry that the loop of `pinv` writes for the singular value
`s`. -/
def invertAbove (tol s : K) : K := if s > tol then 1 / s else 0

/-- The entry `M(i,i)`, zero outside the matrix. -/
def diagEntry {r c : Nat} (M : Matrix (Fin r) (Fin c) K) (i : Nat) : K :=
  if h : i < r ∧ i < c then M ⟨i, h.1⟩ ⟨i, h.2⟩ else 0

/-- The number of non-zero entries on the main diagonal. -/
def nonzeroDiagCount {r c : Nat} (M : Matrix (Fin r) (Fin c) K) : Nat :=
  (List.range (min r c)).countP fun i => decide (diagEntry M i ≠ 0)

/-- The decomposition object holding full factors `U` (`m x m`) and `V`
(`n x n`) and the singular values `sv`. -/
def JacobiSVD.full {m n : Nat} (U : Matrix (Fin m) (Fin m) K) (sv : VectorXd K)
    (V : Matrix (Fin n) (Fin n) K) : JacobiSVD K :=
  ⟨⟨m, m, U⟩, sv, ⟨n, n, V⟩⟩

/-- The contract of the matrix library for a full singular value
decomposition of the `m x n` matrix `A`: `min m n` non-negative singular
values in decreasing order, orthogonal `U` and `V`, and
`A = U * Sigma * V^T` with the singular values on the diagonal of the
`m x n` matrix `Sigma`. -/
structure IsSVD {m n : Nat} (A : Matrix (Fin m) (Fin n) K) (U : Matrix (Fin m) (Fin m) K)
    (sv : VectorXd K) (V : Matrix (Fin n) (Fin n) K) : Prop where
  size : sv.length = min m n
  nonneg : ∀ s ∈ sv, 0 ≤ s
  sorted : sv.Sorted (· ≥ ·)
  orthoU : U.transpose * U = 1
  orthoV : V.transpose * V = 1
  factor : A = U * rectDiag m n (fun i => sv.getD i 0) * V.transpose

/-- The 1 x 2 example matrix `[3 4]`. -/
def exampleRow : Matrix (Fin 1) (Fin 2) K := !![3, 4]

/-- The 2 x 2 rotation with columns `(3/5, 4/5)` and `(-4/5, 3/5)`, the
factor `V` of a decomposition of `exampleRow`. -/
def exampleRotation : Matrix (Fin 2) (Fin 2) K := !![3 / 5, -4 / 5; 4 / 5, 3 / 5]

end LinearAlgebra

/-! ## Theorems: dual-quaternion operators -/

namespace DQ

/-- C4: `Hplus4` has the fixed sign pattern and is the matrix of left
quaternion multiplication by the primary part, `Hplus4(q) * vec(q2) = vec(q*q2)`,
also for the primary part of the dual-quaternion product; for
`DQ(1,2,3,4,5,6,7,8)` it is the matrix of `DQTest::Hplus4Test`. -/
theorem Hplus4_is_left_multiplication :
    (∀ (R : Type) [CommRing R] (a b c d e f g h : R) (q2 : Quaternion R),
      Hplus4 (mk8 a b c d e f g h) = !![a, -b, -c, -d; b, a, -d, c; c, d, a, -b; d, -c, b, a] ∧
      (Hplus4 (mk8 a b c d e f g h)).mulVec (vec4 q2) = vec4 (quat a b c d * q2)) ∧
    (∀ (R : Type) [CommRing R] (p r : DQ R), (Hplus4 p).mulVec (vec4 r.P) = vec4 (p * r).P) ∧
    Hplus4 (mk8 (1 : ℚ) 2 3 4 5 6 7 8) = !![1, -2, -3, -4; 2, 1, -4, 3; 3, 4, 1, -2; 4, -3, 2, 1] := by
  refine ⟨fun R _ a b c d e f g h q2 => ⟨?_, ?_⟩, fun R _ p r => ?_, ?_⟩
  · ext i j
    fin_cases i <;> fin_cases j <;> rfl
  · ext i
    fin_cases i <;>
      simp [Hplus4, mk8, vec4, quat, Matrix.mulVec, Matrix.dotProduct, Fin.sum_univ_four] <;> ring
  · show (Hplus4 p).mulVec (vec4 r.P) = vec4 (DQ.mul p r).P
    ext i
    fin_cases i <;>
      simp [Hplus4, mk8, vec4, P, quat, DQ.mul, Matrix.mulVec, Matrix.dotProduct,
        Fin.sum_univ_four] <;> ring
  · ext i j
    fin_cases i <;> fin_cases j <;> rfl

/-- C5: `Hminus4` has the sign pattern below and is the matrix of right
quaternion multiplication by the primary part, `Hminus4(q) * vec(q2) = vec(q2*q)`,
also for the primary part of the dual-quaternion product; for
`DQ(1,2,3,4,5,6,7,8)` it is the matrix of `DQTest::Hminus4Test`. -/
theorem Hminus4_is_right_multiplication :
    (∀ (R : Type) [CommRing R] (a b c d e f g h : R) (q2 : Quaternion R),
      Hminus4 (mk8 a b c d e f g h) = !![a, -b, -c, -d; b, a, d, -c; c, -d, a, b; d, c, -b, a] ∧
      (Hminus4 (mk8 a b c d e f g h)).mulVec (vec4 q2) = vec4 (q2 * quat a b c d)) ∧
    (∀ (R : Type) [CommRing R] (p r : DQ R), (Hminus4 p).mulVec (vec4 r.P) = vec4 (r * p).P) ∧
    Hminus4 (mk8 (1 : ℚ) 2 3 4 5 6 7 8) = !![1, -2, -3, -4; 2, 1, 4, -3; 3, -4, 1, 2; 4, 3, -2, 1] := by
  refine ⟨fun R _ a b c d e f g h q2 => ⟨?_, ?_⟩, fun R _ p r => ?_, ?_⟩
  · ext i j
    fin_cases i <;> fin_cases j <;> rfl
  · ext i
    fin_cases i <;>
      simp [Hminus4, mk8, vec4, quat, Matrix.mulVec, Matrix.dotProduct, Fin.sum_univ_four] <;> ring
  · show (Hminus4 p).mulVec (vec4 r.P) = vec4 (DQ.mul r p).P
    ext i
    fin_cases i <;>
      simp [Hminus4, mk8, vec4, P, quat, DQ.mul, Matrix.mulVec, Matrix.dotProduct,
        Fin.sum_univ_four] <;> ring
  · ext i j
    fin_cases i <;> fin_cases j <;> rfl

/-- The bound on the number of halvings never cuts the count short: any
bound that is at least the magnitude gives the same number of excess bits. -/
theorem Double.excessBits_fuel (f g a : Nat) (hf : a ≤ f) (hg : a ≤ g) :
    Double.excessBits f a = Double.excessBits g a := by
  induction f generalizing g a with
  | zero =>
    have ha : a = 0 := by omega
    subst ha
    cases g with
    | zero => rfl
    | succ g => simp [Double.excessBits]
  | succ f ih =>
    by_cases hlt : a < 2 ^ Double.precision
    · cases g with
      | zero => simp [Double.excessBits, hlt]
      | succ g => simp [Double.excessBits, hlt]
    · have hpos : 0 < 2 ^ Double.precision := Nat.two_pow_pos _
      cases g with
      | zero => omega
      | succ g =>
        simp only [Double.excessBits, if_neg hlt]
        rw [ih g (a / 2) (by omega) (by omega)]

/-- Rounding never produces a NaN. -/
theorem Double.round_ne_nan (z : Int) : Double.round z ≠ Double.nan := by
  unfold Double.round
  simp only
  split <;> simp

/-- A value other than NaN compares equal to itself. -/
theorem Double.eq_self (x : Double) (hx : x ≠ Double.nan) : Double.eq x x = true := by
  cases x <;> simp [Double.eq] at hx ⊢

/-- The sum of two finite values is the rounded exact sum. -/
theorem Double.finite_add_finite (a b : Int) :
    Double.finite a + Double.finite b = Double.round (a + b) := rfl

/-- The binary64 `==` is symmetric in the two operands of a sum of finite
values. -/
theorem Double.eq_add_comm (x y : Double) (hx : x.isFinite = true) (hy : y.isFinite = true) :
    Double.eq (x + y) (y + x) = true := by
  cases x <;> cases y <;> simp [Double.isFinite] at hx hy
  rename_i a b
  rw [Double.finite_add_finite, Double.finite_add_finite, add_comm b a]
  exact Double.eq_self _ (Double.round_ne_nan _)

/-- Membership form of `eqWith`. -/
theorem eqWith_iff (ceq : α → α → Bool) (p r : DQ α) :
    eqWith ceq p r = true ↔ ∀ i, ceq (p.q i) (r.q i) = true := by
  simp [eqWith, List.all_eq_true]

/-- Membership form of `allFinite`. -/
theorem allFinite_iff (p : DQ Double) : p.allFinite = true ↔ ∀ i, (p.q i).isFinite = true := by
  simp [allFinite, List.all_eq_true]

/-- C6 (as stated, refuted): with binary64 components and the exact `==`,
the sum is not associative: `(2^53 + 1) + 1` is `2^53` while `2^53 + (1 + 1)`
is `2^53 + 2`. -/
theorem sum_assoc_comm_not_exact :
    ¬ ∀ p q r : DQ Double,
      beqDouble ((p + q) + r) (p + (q + r)) = true ∧ beqDouble (p + q) (q + p) = true := by
  intro h
  have h1 := (h (ofInts 9007199254740992 0 0 0 0 0 0 0) (ofInts 1 0 0 0 0 0 0 0)
    (ofInts 1 0 0 0 0 0 0 0)).1
  have h2 : beqDouble
      ((ofInts 9007199254740992 0 0 0 0 0 0 0 + ofInts 1 0 0 0 0 0 0 0) + ofInts 1 0 0 0 0 0 0 0)
      (ofInts 9007199254740992 0 0 0 0 0 0 0 + (ofInts 1 0 0 0 0 0 0 0 + ofInts 1 0 0 0 0 0 0 0))
      = false := by decide!
  rw [h2] at h1
  exact Bool.false_ne_true h1

/-- C6 (amended): for dual quaternions with finite binary64 components the
sum commutes under the exact `==`, and it associates under the exact `==`
whenever the two inner sums `p+q` and `q+r` are computed without rounding. -/
theorem sum_comm_and_assoc_when_exact (p q r : DQ Double)
    (hp : p.allFinite = true) (hq : q.allFinite = true) :
    beqDouble (p + q) (q + p) = true ∧
    (sumIsExact p q = true → sumIsExact q r = true →
      beqDouble ((p + q) + r) (p + (q + r)) = true) := by
  rw [allFinite_iff] at hp hq
  refine ⟨(eqWith_iff _ _ _).2 fun i => Double.eq_add_comm _ _ (hp i) (hq i), ?_⟩
  intro h1 h2
  simp only [sumIsExact, List.all_eq_true] at h1 h2
  refine (eqWith_iff _ _ _).2 fun i => ?_
  have e1 := h1 i (List.mem_finRange i)
  have e2 := h2 i (List.mem_finRange i)
  show Double.eq (Double.add (Double.add (p.q i) (q.q i)) (r.q i))
    (Double.add (p.q i) (Double.add (q.q i) (r.q i))) = true
  cases hpi : p.q i <;> cases hqi : q.q i <;> cases hri : r.q i <;>
    simp [hpi, hqi, hri] at e1 e2
  rename_i a b c
  simp only [Double.add, e1, e2, add_assoc]
  exact Double.eq_self _ (Double.round_ne_nan _)

/-- C6 (amended), witness: the operands of `DQTest::sumTest` and a third
small dual quaternion. -/
theorem sum_comm_and_assoc_when_exact_witness :
    (ofInts 1 2 3 4 5 6 7 8).allFinite = true ∧ (ofInts 8 7 6 5 4 3 2 1).allFinite = true ∧
    sumIsExact (ofInts 1 2 3 4 5 6 7 8) (ofInts 8 7 6 5 4 3 2 1) = true ∧
    sumIsExact (ofInts 8 7 6 5 4 3 2 1) (ofInts 1 1 1 1 1 1 1 1) = true ∧
    beqDouble (ofInts 1 2 3 4 5 6 7 8 + ofInts 8 7 6 5 4 3 2 1)
      (ofInts 8 7 6 5 4 3 2 1 + ofInts 1 2 3 4 5 6 7 8) = true ∧
    beqDouble ((ofInts 1 2 3 4 5 6 7 8 + ofInts 8 7 6 5 4 3 2 1) + ofInts 1 1 1 1 1 1 1 1)
      (ofInts 1 2 3 4 5 6 7 8 + (ofInts 8 7 6 5 4 3 2 1 + ofInts 1 1 1 1 1 1 1 1)) = true :=
  have h := sum_comm_and_assoc_when_exact (ofInts 1 2 3 4 5 6 7 8) (ofInts 8 7 6 5 4 3 2 1)
    (ofInts 1 1 1 1 1 1 1 1) (by decide!) (by decide!)
  ⟨by decide!, by decide!, by decide!, by decide!, h.1, h.2 (by decide!) (by decide!)⟩

/-- C7: `+` and `-` act component-wise on the 8-vector, for every carrier of
the components; on binary64 components the sums of `DQTest::sumTest` and
`DQTest::subtractTest` compare equal to the expected dual quaternions. -/
theorem add_sub_componentwise :
    (∀ (β : Type) [Add β] [Sub β] (p q : DQ β) (i : Fin 8),
      (p + q).q i = p.q i + q.q i ∧ (p - q).q i = p.q i - q.q i) ∧
    beqDouble (ofInts 1 2 3 4 5 6 7 8 + ofInts 8 7 6 5 4 3 2 1)
      (ofInts 9 9 9 9 9 9 9 9) = true ∧
    beqDouble (ofInts 1 2 3 4 5 6 7 8 - ofInts 2 4 8 16 32 64 128 256)
      (ofInts (-1) (-2) (-5) (-12) (-27) (-58) (-121) (-248)) = true ∧
    (mk8 (1 : ℚ) 2 3 4 5 6 7 8 + mk8 8 7 6 5 4 3 2 1).q = (mk8 9 9 9 9 9 9 9 9).q ∧
    (mk8 (1 : ℚ) 2 3 4 5 6 7 8 - mk8 2 4 8 16 32 64 128 256).q
      = (mk8 (-1) (-2) (-5) (-12) (-27) (-58) (-121) (-248)).q := by
  refine ⟨fun β _ _ p q i => ⟨rfl, rfl⟩, by decide!, by decide!, ?_, ?_⟩
  · ext i
    show (mk8 (1 : ℚ) 2 3 4 5 6 7 8).q i + (mk8 (8 : ℚ) 7 6 5 4 3 2 1).q i = _
    fin_cases i <;> simp only [mk8] <;> first | rfl | norm_num
  · ext i
    show (mk8 (1 : ℚ) 2 3 4 5 6 7 8).q i - (mk8 (2 : ℚ) 4 8 16 32 64 128 256).q i = _
    fin_cases i <;> simp only [mk8] <;> first | rfl | norm_num

end DQ

/-! ## Theorems: the end-of-control check -/

section ControlLoopTheorems

variable {K : Type} [LinearOrderedField K]

/-- The flag computed by the loop over a list of indices: the initial flag,
or some visited component exceeds the threshold. -/
theorem foldl_continue_control (thr : K) (e : DQ K) (l : List (Fin 8)) (b : Bool) :
    l.foldl (fun continue_control i => if |e.q i| > thr then true else continue_control) b
      = (b || l.any fun i => decide (|e.q i| > thr)) := by
  induction l generalizing b with
  | nil => simp
  | cons i l ih =>
    rw [List.foldl_cons, ih]
    by_cases h : |e.q i| > thr <;> simp [h]

/-- The check leaves `continue_control` false exactly when no component
exceeds the threshold in absolute value. -/
theorem endOfControlCheck_eq_false_iff (thr : K) (e : DQ K) :
    endOfControlCheck thr e = false ↔ ∀ i, |e.q i| ≤ thr := by
  unfold endOfControlCheck
  rw [foldl_continue_control]
  simp [List.any_eq_true]

/-- The threshold of the example is positive. -/
theorem control_threshold_pos : (0 : K) < control_threshold := by
  unfold control_threshold
  positivity

/-- A pose difference whose only non-zero component equals the threshold. -/
theorem abs_boundary_le (t : K) (ht : 0 ≤ t) (i : Fin 8) :
    |(DQ.mk8 t 0 0 0 0 0 0 0).q i| ≤ t := by
  fin_cases i
  · show |t| ≤ t
    rw [abs_of_nonneg ht]
  all_goals
    show |(0 : K)| ≤ t
    simpa using ht

/-- C8 (as stated, refuted): a pose difference whose largest component is
exactly `control_threshold` ends the loop although its infinity norm is not
strictly below the threshold. -/
theorem loop_exit_not_strict :
    ¬ ∀ e : DQ ℚ, (endOfControlCheck control_threshold e = false ↔
      normInf e < control_threshold) := by
  intro h
  have h0 := h (DQ.mk8 control_threshold 0 0 0 0 0 0 0)
  have hex : endOfControlCheck control_threshold
      (DQ.mk8 (control_threshold : ℚ) 0 0 0 0 0 0 0) = false := by
    rw [endOfControlCheck_eq_false_iff]
    exact abs_boundary_le _ control_threshold_pos.le
  have hlt := h0.1 hex
  unfold normInf at hlt
  rw [Finset.sup'_lt_iff] at hlt
  have h1 : |(control_threshold : ℚ)| < control_threshold := hlt 0 (Finset.mem_univ _)
  rw [abs_of_pos control_threshold_pos] at h1
  exact lt_irrefl _ h1

/-- C8 (amended): the check ends the loop if and only if the infinity norm
of the pose difference is at most the threshold; on exit every component is
at most the threshold in absolute value. -/
theorem loop_exit_iff_norm_le (thr : K) (e : DQ K) :
    (endOfControlCheck thr e = false ↔ normInf e ≤ thr) ∧
    (endOfControlCheck thr e = false → ∀ i, |e.q i| ≤ thr) := by
  refine ⟨?_, (endOfControlCheck_eq_false_iff thr e).1⟩
  rw [endOfControlCheck_eq_false_iff]
  unfold normInf
  rw [Finset.sup'_le_iff]
  simp

/-- C8 (amended), witness: a pose difference with one component equal to the
threshold of the example ends the loop. -/
theorem loop_exit_iff_norm_le_witness :
    endOfControlCheck (control_threshold : ℚ) (DQ.mk8 control_threshold 0 0 0 0 0 0 0) = false ∧
    ∀ i, |(DQ.mk8 (control_threshold : ℚ) 0 0 0 0 0 0 0).q i| ≤ control_threshold :=
  have hex : endOfControlCheck (control_threshold : ℚ)
      (DQ.mk8 control_threshold 0 0 0 0 0 0 0) = false := by decide!
  ⟨hex, (loop_exit_iff_norm_le (control_threshold : ℚ)
    (DQ.mk8 control_threshold 0 0 0 0 0 0 0)).2 hex⟩

end ControlLoopTheorems

/-! ## Theorems: linear-algebra utilities -/

section LinearAlgebraTheorems

variable {K : Type} [LinearOrderedField K]

/-- A coefficient read inside the vector succeeds. -/
theorem VectorXd.coeff_of_lt (v : VectorXd K) (i : Nat) (h : i < v.length) :
    VectorXd.coeff v i = .ok (v.getD i 0) := by
  unfold VectorXd.coeff
  rw [List.getD_eq_getElem?_getD, List.getElem?_eq_getElem h]
  rfl

omit [LinearOrderedField K] in
/-- A coefficient read outside the vector fails. -/
theorem VectorXd.coeff_of_le (v : VectorXd K) (i : Nat) (h : v.length ≤ i) :
    VectorXd.coeff v i = .error (.vectorIndex i v.length) := by
  unfold VectorXd.coeff
  rw [List.getElem?_eq_none h]

/-- The tolerance of a non-empty vector of singular values. -/
theorem tolerance_of_pos (m n : Nat) (sv : VectorXd K) (h : 0 < sv.length) :
    tolerance m n sv = .ok (tol m n sv) := by
  unfold tolerance
  rw [VectorXd.coeff_of_lt sv 0 h]
  rfl

/-- The tolerance of an empty vector of singular values: the read of
`singular_values(0)` is out of range. -/
theorem tolerance_of_empty (m n : Nat) (sv : VectorXd K) (h : sv.length = 0) :
    tolerance m n sv = .error (.vectorIndex 0 0) := by
  unfold tolerance
  rw [VectorXd.coeff_of_le sv 0 (by omega), h]
  rfl

/-- The machine epsilon is positive. -/
theorem eps_pos : (0 : K) < eps := by
  unfold eps
  positivity

/-- The tolerance is non-negative when the first singular value is. -/
theorem tol_nonneg (m n : Nat) (sv : VectorXd K) (h : ∀ s ∈ sv, 0 ≤ s) : 0 ≤ tol m n sv := by
  unfold tol
  have h0 : (0 : K) ≤ sv.getD 0 0 := by
    cases sv with
    | nil => simp
    | cons a l => simpa using h a (List.mem_cons_self a l)
  have := (eps_pos : (0 : K) < eps).le
  positivity

/-- The product of two matrices of matching run-time shapes. -/
theorem MatrixXd.mul_of_shapes {a b c : Nat} (A : Matrix (Fin a) (Fin b) K)
    (B : Matrix (Fin b) (Fin c) K) :
    MatrixXd.mul ⟨a, b, A⟩ ⟨b, c, B⟩ = .ok ⟨a, c, A * B⟩ := by
  simp [MatrixXd.mul]

/-- The product of two matrices of different inner dimensions fails. -/
theorem MatrixXd.mul_of_mismatch (A B : MatrixXd K) (h : A.cols ≠ B.rows) :
    MatrixXd.mul A B = .error (.productShape A.cols B.rows) := by
  simp [MatrixXd.mul, h]

/-- A write on the diagonal extends the diagonal built so far by one entry. -/
theorem setCoeff_rectDiag (m n k : Nat) (d : Nat → K) (v : K) (hkn : k < n) (hkm : k < m) :
    MatrixXd.setCoeff ⟨n, m, rectDiag n m (fun i => if i < k then d i else 0)⟩ k k v
      = .ok ⟨n, m, rectDiag n m (fun i => if i < k + 1 then (if i = k then v else d i) else 0)⟩ := by
  unfold MatrixXd.setCoeff
  rw [if_pos ⟨hkn, hkm⟩]
  have hM : (Matrix.of fun (a : Fin n) (b : Fin m) =>
      if a.val = k ∧ b.val = k then v else rectDiag n m (fun i => if i < k then d i else 0) a b)
      = rectDiag n m (fun i => if i < k + 1 then (if i = k then v else d i) else 0) := by
    ext a b
    simp only [rectDiag, Matrix.of_apply]
    by_cases h3 : a.val = b.val
    · by_cases h1 : a.val = k
      · rw [if_pos ⟨h1, by omega⟩, if_pos h3, if_pos (by omega), if_pos h1]
      · rw [if_neg (fun h => h1 h.1), if_pos h3, if_pos h3, if_neg h1]
        by_cases h5 : a.val < k
        · rw [if_pos h5, if_pos (by omega)]
        · rw [if_neg h5, if_neg (by omega)]
    · rw [if_neg (fun h => h3 (by omega)), if_neg h3, if_neg h3]
  exact congrArg (fun M => Except.ok (MatrixXd.mk n m M)) hM

/-- The loop of `pinv` after `k` iterations. -/
theorem sigma_loop (m n : Nat) (sv : VectorXd K) (t : K) (k : Nat) (hk : k ≤ sv.length)
    (hkn : k ≤ n) (hkm : k ≤ m) :
    (List.range k).foldlM
      (fun sigma i => do
        let s ← VectorXd.coeff sv i
        if s > t then MatrixXd.setCoeff sigma i i (1 / s) else MatrixXd.setCoeff sigma i i 0)
      (MatrixXd.Zero n m)
      = .ok ⟨n, m, rectDiag n m (fun i => if i < k then invertAbove t (sv.getD i 0) else 0)⟩ := by
  induction k with
  | zero =>
    simp only [List.range_zero, List.foldlM_nil, MatrixXd.Zero]
    show Except.ok _ = Except.ok _
    congr 2
    ext a b
    simp [rectDiag]
  | succ k ih =>
    rw [List.range_succ, List.foldlM_append, ih (by omega) (by omega) (by omega)]
    simp only [List.foldlM_cons, List.foldlM_nil]
    rw [VectorXd.coeff_of_lt sv k (by omega)]
    show (do
      let x ← (if sv.getD k 0 > t then MatrixXd.setCoeff _ k k (1 / sv.getD k 0)
        else MatrixXd.setCoeff _ k k 0)
      pure x) = _
    rw [bind_pure]
    have key := fun v => setCoeff_rectDiag m n k (fun i => invertAbove t (sv.getD i 0)) v
      (by omega) (by omega)
    rw [key, key]
    have hfun : ∀ v : K, v = invertAbove t (sv.getD k 0) →
        (fun i => if i < k + 1 then (if i = k then v else invertAbove t (sv.getD i 0)) else 0)
          = fun i => if i < k + 1 then invertAbove t (sv.getD i 0) else 0 := by
      intro v hv
      funext i
      by_cases hi : i = k
      · rw [hi, hv]
        simp
      · simp [hi]
    by_cases h : sv.getD k 0 > t
    · rw [if_pos h, hfun _ (by rw [invertAbove, if_pos h])]
    · rw [if_neg h, hfun _ (by rw [invertAbove, if_neg h])]

/-- The loop of `rank` after `k` iterations. -/
theorem rank_loop (sv : VectorXd K) (t : K) (k : Nat) (hk : k ≤ sv.length) :
    (List.range k).foldlM
      (fun rank i => do
        let s ← VectorXd.coeff sv i
        pure (if s > t then rank + 1 else rank))
      0
      = (.ok ((sv.take k).countP fun s => decide (s > t)) : Except Fault Nat) := by
  induction k with
  | zero => rfl
  | succ k ih =>
    rw [List.range_succ, List.foldlM_append, ih (by omega)]
    simp only [List.foldlM_cons, List.foldlM_nil]
    rw [VectorXd.coeff_of_lt sv k (by omega)]
    have hk2 : k < sv.length := by omega
    rw [List.take_succ, List.getElem?_eq_getElem hk2, List.countP_append,
      List.getD_eq_getElem?_getD, List.getElem?_eq_getElem hk2]
    by_cases h : sv[k] > t
    · simp [h, List.countP_cons]
      rfl
    · simp [h, List.countP_cons]
      rfl

/-- Two diagonals that agree on the indices inside the matrix are equal. -/
theorem rectDiag_congr (m n : Nat) (d e : Nat → K) (h : ∀ i, i < m → i < n → d i = e i) :
    rectDiag m n d = rectDiag m n e := by
  ext a b
  simp only [rectDiag, Matrix.of_apply]
  by_cases h3 : a.val = b.val
  · rw [if_pos h3, if_pos h3]
    exact h _ a.isLt (h3 ▸ b.isLt)
  · rw [if_neg h3, if_neg h3]

/-- The matrix `svd_sigma_inverted` of a non-empty matrix. -/
theorem svd_sigma_inverted_eval {m n : Nat} (A : Matrix (Fin m) (Fin n) K)
    (U : Matrix (Fin m) (Fin m) K) (sv : VectorXd K) (V : Matrix (Fin n) (Fin n) K)
    (hsize : sv.length = min m n) (hm : 0 < m) (hn : 0 < n) :
    svd_sigma_inverted (JacobiSVD.full U sv V) ⟨m, n, A⟩
      = .ok ⟨n, m, rectDiag n m fun i => invertAbove (tol m n sv) (sv.getD i 0)⟩ := by
  unfold svd_sigma_inverted
  simp only [JacobiSVD.full]
  rw [tolerance_of_pos m n sv (by omega)]
  show (List.range sv.length).foldlM _ (MatrixXd.Zero n m) = _
  rw [sigma_loop m n sv (tol m n sv) sv.length le_rfl (by omega) (by omega)]
  rw [rectDiag_congr n m _ (fun i => invertAbove (tol m n sv) (sv.getD i 0))]
  intro i h1 h2
  rw [if_pos (by omega)]

/-- The value of `pinv` on a non-empty matrix. -/
theorem pinv_eval {m n : Nat} (A : Matrix (Fin m) (Fin n) K)
    (U : Matrix (Fin m) (Fin m) K) (sv : VectorXd K) (V : Matrix (Fin n) (Fin n) K)
    (hsize : sv.length = min m n) (hm : 0 < m) (hn : 0 < n) :
    pinv (JacobiSVD.full U sv V) ⟨m, n, A⟩
      = .ok ⟨n, m, V * (rectDiag n m (fun i => invertAbove (tol m n sv) (sv.getD i 0))
          * U.transpose)⟩ := by
  unfold pinv
  rw [svd_sigma_inverted_eval A U sv V hsize hm hn]
  show (do
    let right ← MatrixXd.mul ⟨n, m, _⟩ ⟨m, m, U.transpose⟩
    MatrixXd.mul ⟨n, n, V⟩ right) = _
  rw [MatrixXd.mul_of_shapes]
  show MatrixXd.mul ⟨n, n, V⟩ ⟨n, m, _⟩ = _
  rw [MatrixXd.mul_of_shapes]

/-- The value of `rank` when there is at least one singular value. -/
theorem rank_eval (svd : JacobiSVD K) (matrix : MatrixXd K)
    (h : 0 < svd.singularValues.length) :
    rank svd matrix = .ok (svd.singularValues.countP fun s =>
      decide (s > tol matrix.rows matrix.cols svd.singularValues)) := by
  unfold rank
  simp only
  rw [tolerance_of_pos _ _ _ h]
  show (List.range svd.singularValues.length).foldlM _ 0 = _
  rw [rank_loop svd.singularValues _ svd.singularValues.length le_rfl, List.take_length]

/-- Both functions fail on the read of `singular_values(0)` when there is no
singular value. -/
theorem pinv_rank_of_empty (svd : JacobiSVD K) (matrix : MatrixXd K)
    (h : svd.singularValues.length = 0) :
    pinv svd matrix = .error (.vectorIndex 0 0) ∧ rank svd matrix = .error (.vectorIndex 0 0) := by
  constructor
  · unfold pinv svd_sigma_inverted
    simp only
    rw [tolerance_of_empty _ _ _ h]
    rfl
  · unfold rank
    simp only
    rw [tolerance_of_empty _ _ _ h]
    rfl

/-- The decomposition `1 * diag(sv) * 1^T` of a square diagonal matrix with
non-negative entries in decreasing order. -/
theorem isSVD_diag (n : Nat) (sv : VectorXd K) (hsize : sv.length = n)
    (hnonneg : ∀ s ∈ sv, 0 ≤ s) (hsorted : sv.Sorted (· ≥ ·)) :
    IsSVD (rectDiag n n fun i => sv.getD i 0) 1 sv 1 where
  size := by simpa using hsize
  nonneg := hnonneg
  sorted := hsorted
  orthoU := by simp
  orthoV := by simp
  factor := by simp

/-- C2 (as stated, refuted): the 2 x 2 matrix `diag(1, 2^(-60))` has two
non-zero singular values, `1` and `2^(-60)`, but `rank` returns 1: the
tolerance is `2 * 1 * 2^(-52)`. -/
theorem rank_full_rank_square_not_min :
    IsSVD (rectDiag 2 2 fun i => ([1, 1 / 2 ^ 60] : VectorXd ℚ).getD i 0) 1 [1, 1 / 2 ^ 60] 1 ∧
    (∀ s ∈ ([1, 1 / 2 ^ 60] : VectorXd ℚ), s ≠ 0) ∧
    rank (JacobiSVD.full (1 : Matrix (Fin 2) (Fin 2) ℚ) [1, 1 / 2 ^ 60]
        (1 : Matrix (Fin 2) (Fin 2) ℚ))
      ⟨2, 2, rectDiag 2 2 fun i => ([1, 1 / 2 ^ 60] : VectorXd ℚ).getD i 0⟩ = .ok 1 ∧
    (Except.ok 1 : Except Fault Nat) ≠ .ok (min 2 2) ∧
    (rectDiag 2 2 fun i => ([1, 1 / 2 ^ 60] : VectorXd ℚ).getD i 0)
      = !![1, 0; 0, 1 / 2 ^ 60] := by
  refine ⟨isSVD_diag 2 [1, 1 / 2 ^ 60] rfl ?_ ?_, ?_, ?_,
    fun h => by injection h with h; revert h; decide, ?_⟩
  rotate_right
  · ext i j
    fin_cases i <;> fin_cases j <;> simp [rectDiag]
  · intro s hs
    simp only [List.mem_cons, List.mem_singleton, List.not_mem_nil, or_false] at hs
    rcases hs with rfl | rfl <;> positivity
  · simp only [List.sorted_cons, List.mem_singleton, forall_eq, List.not_mem_nil,
      IsEmpty.forall_iff, implies_true, List.sorted_nil, and_true]
    norm_num
  · intro s hs
    simp only [List.mem_cons, List.mem_singleton, List.not_mem_nil, or_false] at hs
    rcases hs with rfl | rfl <;> positivity
  · rw [rank_eval _ _ (by simp [JacobiSVD.full])]
    simp only [JacobiSVD.full, tol, eps]
    norm_num [List.countP_cons]

/-- C2 (amended): on a non-empty matrix `rank` returns the number of singular
values that exceed the tolerance `max(rows,cols) * sigma_0 * eps`, and it
returns `min(rows,cols)` exactly when every singular value exceeds the
tolerance. -/
theorem rank_eq_count_above_tol {m n : Nat} (A : Matrix (Fin m) (Fin n) K)
    (U : Matrix (Fin m) (Fin m) K) (sv : VectorXd K) (V : Matrix (Fin n) (Fin n) K)
    (hsize : sv.length = min m n) (hm : 0 < m) (hn : 0 < n) :
    rank (JacobiSVD.full U sv V) ⟨m, n, A⟩
      = .ok (sv.countP fun s => decide (s > tol m n sv)) ∧
    (rank (JacobiSVD.full U sv V) ⟨m, n, A⟩ = .ok (min m n) ↔ ∀ s ∈ sv, s > tol m n sv) := by
  have h : rank (JacobiSVD.full U sv V) ⟨m, n, A⟩
      = .ok (sv.countP fun s => decide (s > tol m n sv)) :=
    rank_eval (JacobiSVD.full U sv V) ⟨m, n, A⟩ (by simp only [JacobiSVD.full]; omega)
  refine ⟨h, ?_⟩
  rw [h, ← hsize]
  constructor
  · intro hr
    have hc : sv.countP (fun s => decide (s > tol m n sv)) = sv.length := by
      injection hr
    simpa using List.countP_eq_length.1 hc
  · intro hall
    have hc : sv.countP (fun s => decide (s > tol m n sv)) = sv.length :=
      List.countP_eq_length.2 (by simpa using hall)
    rw [hc]

/-- C2 (amended), witness: the 2 x 2 identity matrix has rank 2. -/
theorem rank_eq_count_above_tol_witness :
    rank (JacobiSVD.full (1 : Matrix (Fin 2) (Fin 2) ℚ) [1, 1] (1 : Matrix (Fin 2) (Fin 2) ℚ))
        ⟨2, 2, 1⟩
      = .ok (([1, 1] : VectorXd ℚ).countP fun s => decide (s > tol 2 2 [1, 1])) ∧
    (rank (JacobiSVD.full (1 : Matrix (Fin 2) (Fin 2) ℚ) [1, 1] (1 : Matrix (Fin 2) (Fin 2) ℚ))
        ⟨2, 2, 1⟩ = .ok (min 2 2)
      ↔ ∀ s ∈ ([1, 1] : VectorXd ℚ), s > tol 2 2 [1, 1]) :=
  rank_eq_count_above_tol (1 : Matrix (Fin 2) (Fin 2) ℚ) 1 [1, 1] 1 (by decide) (by decide)
    (by decide)

/-- The product of two rectangular diagonal matrices. -/
theorem rectDiag_mul (a b c : Nat) (d e : Nat → K) :
    rectDiag a b d * rectDiag b c e = rectDiag a c fun i => if i < b then d i * e i else 0 := by
  ext i j
  simp only [Matrix.mul_apply, rectDiag, Matrix.of_apply]
  by_cases hb : i.val < b
  · rw [Finset.sum_eq_single (⟨i.val, hb⟩ : Fin b)]
    · show (if i.val = i.val then d i.val else 0) * (if i.val = j.val then e i.val else 0) = _
      rw [if_pos rfl, if_pos hb]
      by_cases hij : i.val = j.val
      · rw [if_pos hij, if_pos hij]
      · rw [if_neg hij, if_neg hij, mul_zero]
    · intro k _ hk
      have : ¬ i.val = k.val := fun h => hk (Fin.ext h.symm)
      simp [this]
    · intro h
      exact absurd (Finset.mem_univ _) h
  · rw [Finset.sum_eq_zero]
    · simp [hb]
    · intro k _
      have : ¬ i.val = k.val := fun h => hb (h ▸ k.isLt)
      simp [this]

/-- The difference of two rectangular diagonal matrices. -/
theorem rectDiag_sub (a b : Nat) (d e : Nat → K) :
    rectDiag a b d - rectDiag a b e = rectDiag a b fun i => d i - e i := by
  ext i j
  simp only [Matrix.sub_apply, rectDiag, Matrix.of_apply]
  by_cases hij : i.val = j.val <;> simp [hij]

/-- The transpose of a rectangular diagonal matrix. -/
theorem rectDiag_transpose (a b : Nat) (d : Nat → K) :
    (rectDiag a b d).transpose = rectDiag b a d := by
  ext i j
  simp only [Matrix.transpose_apply, rectDiag, Matrix.of_apply]
  by_cases hij : i.val = j.val
  · rw [if_pos hij, if_pos hij.symm, hij]
  · rw [if_neg hij, if_neg (fun h => hij h.symm)]

/-- A square diagonal matrix scales the components of a vector. -/
theorem rectDiag_mulVec (n : Nat) (d : Nat → K) (z : Fin n → K) (j : Fin n) :
    (rectDiag n n d).mulVec z j = d j.val * z j := by
  simp only [Matrix.mulVec, Matrix.dotProduct, rectDiag, Matrix.of_apply]
  rw [Finset.sum_eq_single j]
  · simp
  · intro k _ hk
    have : ¬ j.val = k.val := fun h => hk (Fin.ext h.symm)
    simp [this]
  · intro h
    exact absurd (Finset.mem_univ _) h

/-- The sum of the squares of the components of `M x` is `x . (M^T M x)`. -/
theorem sum_sq_mulVec {m n : Nat} (M : Matrix (Fin m) (Fin n) K) (x : Fin n → K) :
    ∑ i, (M.mulVec x i) ^ 2 = Matrix.dotProduct x ((M.transpose * M).mulVec x) := by
  have h1 : ∑ i, (M.mulVec x i) ^ 2 = Matrix.dotProduct (M.mulVec x) (M.mulVec x) := by
    simp only [Matrix.dotProduct, sq]
  rw [h1, Matrix.dotProduct_mulVec, ← Matrix.mulVec_transpose, Matrix.mulVec_mulVec,
    Matrix.dotProduct_comm]

/-- A matrix with orthonormal columns preserves the sum of squares. -/
theorem sum_sq_mulVec_of_ortho {m n : Nat} (W : Matrix (Fin m) (Fin n) K)
    (hW : W.transpose * W = 1) (x : Fin n → K) :
    ∑ i, (W.mulVec x i) ^ 2 = ∑ j, x j ^ 2 := by
  rw [sum_sq_mulVec, hW, Matrix.one_mulVec]
  simp only [Matrix.dotProduct, sq]

/-- A rectangular diagonal matrix whose entries are bounded by `t` in
absolute value scales the sum of squares by at most `t^2`. -/
theorem sum_sq_rectDiag_le (m n : Nat) (d : Nat → K) (t : K) (hd : ∀ i, |d i| ≤ t)
    (z : Fin n → K) :
    ∑ i, ((rectDiag m n d).mulVec z i) ^ 2 ≤ t ^ 2 * ∑ j, z j ^ 2 := by
  rw [sum_sq_mulVec, rectDiag_transpose, rectDiag_mul, Finset.mul_sum]
  simp only [Matrix.dotProduct]
  apply Finset.sum_le_sum
  intro j _
  rw [rectDiag_mulVec]
  have hz : 0 ≤ z j ^ 2 := sq_nonneg _
  have hsq : d j.val * d j.val ≤ t ^ 2 := by
    rw [← sq, ← sq_abs]
    exact pow_le_pow_left₀ (abs_nonneg _) (hd _) 2
  have ht : 0 ≤ t ^ 2 := sq_nonneg _
  by_cases hj : j.val < m
  · rw [if_pos hj]
    calc z j * (d j.val * d j.val * z j) = (d j.val * d j.val) * z j ^ 2 := by ring
      _ ≤ t ^ 2 * z j ^ 2 := mul_le_mul_of_nonneg_right hsq hz
  · rw [if_neg hj]
    simpa using mul_nonneg ht hz

/-- The sum-of-squares bound for a product `U * D * V^T` with orthogonal `U`
and `V` and a rectangular diagonal `D` bounded by `t`. -/
theorem sum_sq_sandwich_le {m n : Nat} (U : Matrix (Fin m) (Fin m) K)
    (V : Matrix (Fin n) (Fin n) K) (hU : U.transpose * U = 1) (hV : V.transpose * V = 1)
    (d : Nat → K) (t : K) (hd : ∀ i, |d i| ≤ t) (x : Fin n → K) :
    ∑ i, ((U * rectDiag m n d * V.transpose).mulVec x i) ^ 2 ≤ t ^ 2 * ∑ j, x j ^ 2 := by
  have hV2 : V.transpose.transpose * V.transpose = 1 := by
    rw [Matrix.transpose_transpose]
    exact Matrix.mul_eq_one_comm.mp hV
  rw [← Matrix.mulVec_mulVec, ← Matrix.mulVec_mulVec, sum_sq_mulVec_of_ortho U hU,
    ← sum_sq_mulVec_of_ortho V.transpose hV2 x]
  exact sum_sq_rectDiag_le m n d t hd _

/-- A singular value that is inverted is reproduced by
`s * (1/s) * s`; one that is zeroed is lost. -/
theorem roundtrip_entry (t x : K) :
    x * (invertAbove t x * x) = if x > t then x else 0 := by
  unfold invertAbove
  by_cases h : x > t
  · rw [if_pos h, if_pos h]
    by_cases hx : x = 0
    · rw [hx]
      simp
    · field_simp
  · rw [if_neg h, if_neg h]
    simp

/-- Entries of the vector of singular values, read with a default, are
non-negative. -/
theorem getD_nonneg (sv : VectorXd K) (h : ∀ s ∈ sv, 0 ≤ s) (i : Nat) : 0 ≤ sv.getD i 0 := by
  by_cases hi : i < sv.length
  · rw [List.getD_eq_getElem sv 0 hi]
    exact h _ (List.getElem_mem hi)
  · rw [List.getD_eq_default sv 0 (by omega)]

/-- Entries of the vector of singular values, read with a default, satisfy
every property of the singular values that holds of zero. -/
theorem getD_mem_or_zero (sv : VectorXd K) (i : Nat) : sv.getD i 0 ∈ sv ∨ sv.getD i 0 = 0 := by
  by_cases hi : i < sv.length
  · rw [List.getD_eq_getElem sv 0 hi]
    exact Or.inl (List.getElem_mem hi)
  · rw [List.getD_eq_default sv 0 (by omega)]
    exact Or.inr rfl

/-- The product `A * pinv(A) * A` in terms of the factors of the
decomposition. -/
theorem roundtrip_product {m n : Nat} (A : Matrix (Fin m) (Fin n) K)
    (U : Matrix (Fin m) (Fin m) K) (sv : VectorXd K) (V : Matrix (Fin n) (Fin n) K)
    (h : IsSVD A U sv V) (t : K) :
    A * (V * (rectDiag n m (fun i => invertAbove t (sv.getD i 0)) * U.transpose)) * A
      = U * rectDiag m n (fun i => if sv.getD i 0 > t then sv.getD i 0 else 0)
          * V.transpose := by
  have eU : ∀ Y : Matrix (Fin m) (Fin n) K, U.transpose * (U * Y) = Y := fun Y => by
    rw [← Matrix.mul_assoc, h.orthoU, Matrix.one_mul]
  have eV : ∀ Y : Matrix (Fin n) (Fin n) K, V.transpose * (V * Y) = Y := fun Y => by
    rw [← Matrix.mul_assoc, h.orthoV, Matrix.one_mul]
  have eD : rectDiag m n (fun i => sv.getD i 0)
      * (rectDiag n m (fun i => invertAbove t (sv.getD i 0)) * rectDiag m n fun i => sv.getD i 0)
      = rectDiag m n fun i => if sv.getD i 0 > t then sv.getD i 0 else 0 := by
    rw [rectDiag_mul, rectDiag_mul]
    apply rectDiag_congr
    intro i h1 h2
    rw [if_pos h2, if_pos h1, roundtrip_entry]
  conv_lhs => rw [h.factor]
  simp only [Matrix.mul_assoc]
  rw [eU, eV, ← Matrix.mul_assoc (rectDiag n m _), ← Matrix.mul_assoc (rectDiag m n _), eD]

/-- Counting over the indices of a vector is counting over its entries. -/
theorem countP_range_getD (sv : VectorXd K) (p : K → Bool) :
    (List.range sv.length).countP (fun i => p (sv.getD i 0)) = sv.countP p := by
  have hmap : (List.range sv.length).map (fun i => sv.getD i 0) = sv := by
    apply List.ext_getElem
    · simp
    · intro i h1 h2
      simp only [List.getElem_map, List.getElem_range]
      exact List.getD_eq_getElem sv 0 h2
  conv_rhs => rw [← hmap]
  rw [List.countP_map]
  rfl

/-- The diagonal entries of a rectangular diagonal matrix. -/
theorem diagEntry_rectDiag (r c : Nat) (d : Nat → K) (i : Nat) (h : i < min r c) :
    diagEntry (rectDiag r c d) i = d i := by
  unfold diagEntry
  rw [dif_pos ⟨by omega, by omega⟩]
  simp [rectDiag]

/-- Above a non-negative tolerance, the entry written by `pinv` is non-zero
exactly for the singular values that exceed the tolerance. -/
theorem invertAbove_ne_zero_iff (t x : K) (ht : 0 ≤ t) : invertAbove t x ≠ 0 ↔ x > t := by
  unfold invertAbove
  by_cases h : x > t
  · rw [if_pos h]
    have hx : x ≠ 0 := (lt_of_le_of_lt ht h).ne'
    simp [h, hx]
  · rw [if_neg h]
    simp [h]

/-- In a decomposition of the zero matrix every singular value is zero. -/
theorem singular_values_of_zero {m n : Nat} (U : Matrix (Fin m) (Fin m) K) (sv : VectorXd K)
    (V : Matrix (Fin n) (Fin n) K) (h : IsSVD (0 : Matrix (Fin m) (Fin n) K) U sv V) (i : Nat) :
    sv.getD i 0 = 0 := by
  by_cases hi : i < sv.length
  · have hsz := h.size
    have hD : rectDiag m n (fun i => sv.getD i 0) = 0 := by
      have e := congrArg (fun M => U.transpose * M * V) h.factor
      simp only [Matrix.mul_zero, Matrix.zero_mul] at e
      rw [e]
      simp only [Matrix.mul_assoc]
      rw [h.orthoV, Matrix.mul_one, ← Matrix.mul_assoc, h.orthoU, Matrix.one_mul]
    have this : diagEntry (rectDiag m n (fun i => sv.getD i 0)) i = sv.getD i 0 :=
      diagEntry_rectDiag m n (fun i => sv.getD i 0) i (by omega)
    rw [hD] at this
    rw [← this]
    unfold diagEntry
    split <;> rfl
  · exact List.getD_eq_default sv 0 (by omega)

/-- C9: on a non-empty matrix, with non-negative singular values, the number
of non-zero diagonal entries of the `svd_sigma_inverted` built by `pinv`
equals the value returned by `rank`; `pinv` zeroes some singular value
exactly when `rank` is below `min(rows,cols)`; and for the zero matrix
`rank` is 0 and `pinv` is the zero `cols x rows` matrix. -/
theorem rank_counts_inverted_singular_values {m n : Nat} (A : Matrix (Fin m) (Fin n) K)
    (U : Matrix (Fin m) (Fin m) K) (sv : VectorXd K) (V : Matrix (Fin n) (Fin n) K)
    (hm : 0 < m) (hn : 0 < n) (hsize : sv.length = min m n) (hnonneg : ∀ s ∈ sv, 0 ≤ s) :
    ∃ (S : Matrix (Fin n) (Fin m) K) (r : Nat),
      svd_sigma_inverted (JacobiSVD.full U sv V) ⟨m, n, A⟩ = .ok ⟨n, m, S⟩ ∧
      rank (JacobiSVD.full U sv V) ⟨m, n, A⟩ = .ok r ∧
      nonzeroDiagCount S = r ∧
      ((∃ i, i < min m n ∧ diagEntry S i = 0) ↔ r < min m n) ∧
      (A = 0 → IsSVD A U sv V →
        r = 0 ∧ pinv (JacobiSVD.full U sv V) ⟨m, n, A⟩ = .ok ⟨n, m, 0⟩) := by
  have ht := tol_nonneg m n sv hnonneg
  have hr : rank (JacobiSVD.full U sv V) ⟨m, n, A⟩
      = .ok (sv.countP fun s => decide (s > tol m n sv)) :=
    rank_eval (JacobiSVD.full U sv V) ⟨m, n, A⟩ (by simp only [JacobiSVD.full]; omega)
  have hcount : nonzeroDiagCount
      (rectDiag n m fun i => invertAbove (tol m n sv) (sv.getD i 0))
      = sv.countP fun s => decide (s > tol m n sv) := by
    unfold nonzeroDiagCount
    rw [← countP_range_getD sv (fun s => decide (s > tol m n sv)), hsize, min_comm n m]
    apply List.countP_congr
    intro i hi
    rw [List.mem_range] at hi
    rw [diagEntry_rectDiag _ _ _ _ (by omega)]
    simp only [decide_eq_true_eq]
    exact invertAbove_ne_zero_iff _ _ ht
  refine ⟨_, _, svd_sigma_inverted_eval A U sv V hsize hm hn, hr, hcount, ?_, ?_⟩
  · rw [← hcount]
    unfold nonzeroDiagCount
    rw [min_comm n m]
    have hle := List.countP_le_length
      (fun i => decide (diagEntry
        (rectDiag n m fun i => invertAbove (tol m n sv) (sv.getD i 0)) i ≠ 0))
      (l := List.range (min m n))
    rw [List.length_range] at hle
    constructor
    · rintro ⟨i, hi, h0⟩
      apply lt_of_le_of_ne hle
      intro heq
      have heq2 : List.countP (fun i => decide (diagEntry
          (rectDiag n m fun i => invertAbove (tol m n sv) (sv.getD i 0)) i ≠ 0))
          (List.range (min m n)) = (List.range (min m n)).length := by
        rw [List.length_range]
        exact heq
      have hall := List.countP_eq_length.1 heq2 i (List.mem_range.2 hi)
      simp only [decide_eq_true_eq] at hall
      exact hall h0
    · intro hlt
      by_contra hne
      push_neg at hne
      have hall : ∀ i ∈ List.range (min m n), decide (diagEntry
          (rectDiag n m fun i => invertAbove (tol m n sv) (sv.getD i 0)) i ≠ 0) = true := by
        intro i hi
        simpa using hne i (List.mem_range.1 hi)
      have := List.countP_eq_length.2 hall
      rw [List.length_range] at this
      omega
  · intro hA hsvd
    subst hA
    have hz := singular_values_of_zero U sv V hsvd
    have htol : tol m n sv = 0 := by
      unfold tol
      rw [hz 0]
      simp
    constructor
    · rw [← countP_range_getD]
      apply List.countP_eq_zero.2
      intro i _
      rw [hz i, htol]
      simp
    · rw [pinv_eval 0 U sv V hsize hm hn]
      have hS : (rectDiag n m fun i => invertAbove (tol m n sv) (sv.getD i 0)) = 0 := by
        ext a b
        simp only [rectDiag, Matrix.of_apply, hz, htol, invertAbove, Matrix.zero_apply]
        simp
      rw [hS, Matrix.zero_mul, Matrix.mul_zero]

/-- C9, witness: the 2 x 2 matrix `diag(1, 0)`, of rank 1. -/
theorem rank_counts_inverted_singular_values_witness :
    ∃ (S : Matrix (Fin 2) (Fin 2) ℚ) (r : Nat),
      svd_sigma_inverted (JacobiSVD.full (1 : Matrix (Fin 2) (Fin 2) ℚ) [1, 0]
        (1 : Matrix (Fin 2) (Fin 2) ℚ)) ⟨2, 2, rectDiag 2 2 fun i => [1, 0].getD i 0⟩
        = .ok ⟨2, 2, S⟩ ∧
      rank (JacobiSVD.full (1 : Matrix (Fin 2) (Fin 2) ℚ) [1, 0]
        (1 : Matrix (Fin 2) (Fin 2) ℚ)) ⟨2, 2, rectDiag 2 2 fun i => [1, 0].getD i 0⟩ = .ok r ∧
      nonzeroDiagCount S = r ∧
      ((∃ i, i < min 2 2 ∧ diagEntry S i = 0) ↔ r < min 2 2) ∧
      ((rectDiag 2 2 fun i => ([1, 0] : VectorXd ℚ).getD i 0) = 0 →
        IsSVD (rectDiag 2 2 fun i => ([1, 0] : VectorXd ℚ).getD i 0) 1 [1, 0] 1 →
        r = 0 ∧ pinv (JacobiSVD.full (1 : Matrix (Fin 2) (Fin 2) ℚ) [1, 0]
          (1 : Matrix (Fin 2) (Fin 2) ℚ)) ⟨2, 2, rectDiag 2 2 fun i => [1, 0].getD i 0⟩
          = .ok ⟨2, 2, 0⟩) :=
  rank_counts_inverted_singular_values (rectDiag 2 2 fun i => ([1, 0] : VectorXd ℚ).getD i 0)
    1 [1, 0] 1 (by decide) (by decide) (by decide) (by
      intro s hs
      simp only [List.mem_cons, List.mem_singleton, List.not_mem_nil, or_false] at hs
      rcases hs with rfl | rfl <;> norm_num)

/-- C10: when the decomposition holds `min(rows,cols)` singular values,
`pinv` and `rank` run without any out-of-range access on a matrix with at
least one row and one column: the read `singular_values(0)` succeeds, every
index `i < singular_values.size()` lies inside the `cols x rows` matrix, the
result of `pinv` has `cols` rows and `rows` columns; and on a matrix with no
row or no column both fail on the read `singular_values(0)`. -/
theorem pinv_rank_in_range_iff_nonempty {m n : Nat} (A : Matrix (Fin m) (Fin n) K)
    (U : Matrix (Fin m) (Fin m) K) (sv : VectorXd K) (V : Matrix (Fin n) (Fin n) K)
    (hsize : sv.length = min m n) :
    (0 < m ∧ 0 < n →
      (∃ s0, VectorXd.coeff sv 0 = .ok s0) ∧
      (∀ i, i < sv.length → ∀ v : K, ∃ M,
        MatrixXd.setCoeff (MatrixXd.Zero n m) i i v = .ok M) ∧
      (∃ P, pinv (JacobiSVD.full U sv V) ⟨m, n, A⟩ = .ok P ∧ P.rows = n ∧ P.cols = m) ∧
      (∃ r, rank (JacobiSVD.full U sv V) ⟨m, n, A⟩ = .ok r)) ∧
    (m = 0 ∨ n = 0 →
      VectorXd.coeff sv 0 = .error (.vectorIndex 0 0) ∧
      pinv (JacobiSVD.full U sv V) ⟨m, n, A⟩ = .error (.vectorIndex 0 0) ∧
      rank (JacobiSVD.full U sv V) ⟨m, n, A⟩ = .error (.vectorIndex 0 0)) := by
  constructor
  · rintro ⟨hm, hn⟩
    refine ⟨⟨_, VectorXd.coeff_of_lt sv 0 (by omega)⟩, ?_,
      ⟨_, pinv_eval A U sv V hsize hm hn, rfl, rfl⟩,
      ⟨_, rank_eval (JacobiSVD.full U sv V) ⟨m, n, A⟩ (by simp only [JacobiSVD.full]; omega)⟩⟩
    intro i hi v
    unfold MatrixXd.setCoeff MatrixXd.Zero
    rw [if_pos ⟨by show i < n; omega, by show i < m; omega⟩]
    exact ⟨_, rfl⟩
  · intro h0
    have hlen : sv.length = 0 := by
      rcases h0 with h | h <;> simp [hsize, h]
    have hfail := pinv_rank_of_empty (JacobiSVD.full U sv V) ⟨m, n, A⟩ hlen
    refine ⟨?_, hfail.1, hfail.2⟩
    have := VectorXd.coeff_of_le sv 0 (by omega)
    rw [hlen] at this
    exact this

/-- C10, witness: a 1 x 2 matrix and its decomposition. -/
theorem pinv_rank_in_range_iff_nonempty_witness :
    (∃ P, pinv (JacobiSVD.full (1 : Matrix (Fin 1) (Fin 1) ℚ) [5]
        (exampleRotation : Matrix _ _ ℚ)) ⟨1, 2, exampleRow⟩ = .ok P ∧
      P.rows = 2 ∧ P.cols = 1) ∧
    ∃ r, rank (JacobiSVD.full (1 : Matrix (Fin 1) (Fin 1) ℚ) [5]
        (exampleRotation : Matrix _ _ ℚ)) ⟨1, 2, exampleRow⟩ = .ok r :=
  have h := (pinv_rank_in_range_iff_nonempty (exampleRow : Matrix _ _ ℚ) 1 [5]
    (exampleRotation : Matrix _ _ ℚ) (by decide)).1 ⟨by decide, by decide⟩
  ⟨h.2.2.1, h.2.2.2⟩

/-- The 1 x 2 matrix `[3 4]` is `1 * [5 0] * V^T` for the rotation `V` with
columns `(3/5, 4/5)` and `(-4/5, 3/5)`. -/
theorem isSVD_exampleRow : IsSVD (exampleRow : Matrix (Fin 1) (Fin 2) K) 1 [5] exampleRotation where
  size := rfl
  nonneg := by
    intro s hs
    rw [List.mem_singleton] at hs
    rw [hs]
    norm_num
  sorted := by simp
  orthoU := by simp
  orthoV := by
    ext i j
    fin_cases i <;> fin_cases j <;>
      (simp [exampleRotation, Matrix.mul_apply, Fin.sum_univ_two, Matrix.one_apply,
        Matrix.transpose_apply, Matrix.vecHead, Matrix.vecTail]; norm_num)
  factor := by
    ext i j
    fin_cases i
    fin_cases j <;>
      (simp [exampleRow, exampleRotation, Matrix.mul_apply, Fin.sum_univ_two, rectDiag,
        Matrix.one_apply, Matrix.transpose_apply, Matrix.vecHead, Matrix.vecTail]; norm_num)

/-- On a matrix that is not square the product `U * S * V.adjoint()` of the
tuple returned by `svd` is not defined: `S` is square of order
`min(rows,cols)` while `U` and `V` are the full factors. -/
theorem svd_reconstruct_of_ne {m n : Nat} (A : Matrix (Fin m) (Fin n) K)
    (U : Matrix (Fin m) (Fin m) K) (sv : VectorXd K) (V : Matrix (Fin n) (Fin n) K)
    (hsize : sv.length = min m n) (hne : m ≠ n) :
    ∃ a b, reconstruct (svd (JacobiSVD.full U sv V) ⟨m, n, A⟩) = .error (.productShape a b) := by
  unfold reconstruct svd
  simp only [JacobiSVD.full, MatrixXd.asDiagonal]
  by_cases h1 : m = sv.length
  · have h2 : sv.length ≠ n := by omega
    unfold MatrixXd.mul
    simp only [MatrixXd.adjoint]
    rw [dif_pos h1]
    exact ⟨_, _, by
      show (if h : sv.length = n then _ else _) = _
      rw [dif_neg h2]⟩
  · unfold MatrixXd.mul
    simp only
    rw [dif_neg h1]
    exact ⟨_, _, rfl⟩

/-- On a square matrix the product `U * S * V.adjoint()` of the tuple
returned by `svd` is the matrix. -/
theorem svd_reconstruct_square (sv : VectorXd K)
    (A U V : Matrix (Fin sv.length) (Fin sv.length) K) (h : IsSVD A U sv V) :
    reconstruct (svd (JacobiSVD.full U sv V) ⟨sv.length, sv.length, A⟩)
      = .ok ⟨sv.length, sv.length, A⟩ := by
  have hD : (Matrix.diagonal fun i : Fin sv.length => sv.get i)
      = rectDiag sv.length sv.length fun i => sv.getD i 0 := by
    ext i j
    simp only [rectDiag, Matrix.of_apply, Matrix.diagonal_apply]
    by_cases hij : i = j
    · subst hij
      rw [if_pos rfl, if_pos rfl, List.getD_eq_getElem sv 0 i.isLt]
      rfl
    · rw [if_neg hij, if_neg (fun hv => hij (Fin.ext hv))]
  unfold reconstruct svd
  simp only [JacobiSVD.full, MatrixXd.asDiagonal]
  rw [MatrixXd.mul_of_shapes]
  show MatrixXd.mul ⟨sv.length, sv.length, _⟩ ⟨sv.length, sv.length, V.transpose⟩ = _
  rw [MatrixXd.mul_of_shapes, hD, ← h.factor]

/-- C3: the doc comment of `svd` promises `matrix = U*S*V.adjoint()`; for the
1 x 2 matrix `[3 4]` with its decomposition `U = [1]`, singular value `5` and
a 2 x 2 rotation `V`, the returned `S` is 1 x 1 and the product
`U*S*V.adjoint()` is not defined (inner dimensions 1 and 2). -/
theorem svd_reconstruct_fails_on_row :
    IsSVD (exampleRow : Matrix (Fin 1) (Fin 2) ℚ) 1 [5] exampleRotation ∧
    (svd (JacobiSVD.full (1 : Matrix (Fin 1) (Fin 1) ℚ) [5] (exampleRotation : Matrix _ _ ℚ))
      ⟨1, 2, exampleRow⟩).2.1.rows = 1 ∧
    (svd (JacobiSVD.full (1 : Matrix (Fin 1) (Fin 1) ℚ) [5] (exampleRotation : Matrix _ _ ℚ))
      ⟨1, 2, exampleRow⟩).2.1.cols = 1 ∧
    reconstruct (svd (JacobiSVD.full (1 : Matrix (Fin 1) (Fin 1) ℚ) [5]
      (exampleRotation : Matrix _ _ ℚ)) ⟨1, 2, exampleRow⟩) = .error (.productShape 1 2) :=
  ⟨isSVD_exampleRow, rfl, rfl, rfl⟩

end LinearAlgebraTheorems

section SpectralNorm

open scoped Matrix.L2OpNorm

/-- The spectral norm (the operator norm for the Euclidean norms) of a real
matrix is at most `t` when the matrix scales the sum of squares of every
vector by at most `t^2`. -/
theorem l2_opNorm_le_of_sum_sq {m n : Nat} (M : Matrix (Fin m) (Fin n) ℝ) (t : ℝ) (ht : 0 ≤ t)
    (h : ∀ x : Fin n → ℝ, ∑ i, (M.mulVec x i) ^ 2 ≤ t ^ 2 * ∑ j, x j ^ 2) : ‖M‖ ≤ t := by
  rw [Matrix.l2_opNorm_def]
  apply ContinuousLinearMap.opNorm_le_bound _ ht
  intro x
  rw [EuclideanSpace.norm_eq, EuclideanSpace.norm_eq]
  have hx := h x
  have e : t = Real.sqrt (t ^ 2) := (Real.sqrt_sq ht).symm
  rw [e, ← Real.sqrt_mul (sq_nonneg t)]
  apply Real.sqrt_le_sqrt
  simp only [Real.norm_eq_abs, sq_abs]
  exact hx

/-- C1: for a real matrix `A` with at least one row and one column and a
singular value decomposition `A = U * Sigma * V^T`, `pinv` returns
`P = V * (Sigma^+ * U^T)`, where `Sigma^+` holds `1/sigma_i` for the singular
values above `tol = max(rows,cols) * sigma_0 * eps` and zero for the others;
`A * P * A = A` when every non-zero singular value exceeds `tol`, and in
general the spectral norm of `A - A * P * A` is at most `tol`. -/
theorem pinv_roundtrip {m n : Nat} (A : Matrix (Fin m) (Fin n) ℝ)
    (U : Matrix (Fin m) (Fin m) ℝ) (sv : VectorXd ℝ) (V : Matrix (Fin n) (Fin n) ℝ)
    (hm : 0 < m) (hn : 0 < n) (h : IsSVD A U sv V) :
    ∃ P : Matrix (Fin n) (Fin m) ℝ,
      pinv (JacobiSVD.full U sv V) ⟨m, n, A⟩ = .ok ⟨n, m, P⟩ ∧
      P = V * (rectDiag n m (fun i => if sv.getD i 0 > tol m n sv then 1 / sv.getD i 0 else 0)
            * U.transpose) ∧
      ((∀ s ∈ sv, s ≠ 0 → s > tol m n sv) → A * P * A = A) ∧
      ‖A - A * P * A‖ ≤ tol m n sv := by
  refine ⟨_, pinv_eval A U sv V h.size hm hn, rfl, ?_, ?_⟩
  · intro hall
    rw [roundtrip_product A U sv V h]
    conv_rhs => rw [h.factor]
    congr 2
    apply rectDiag_congr
    intro i _ _
    by_cases hgt : sv.getD i 0 > tol m n sv
    · rw [if_pos hgt]
    · rw [if_neg hgt]
      rcases getD_mem_or_zero sv i with hmem | h0
      · by_contra hne
        exact hgt (hall _ hmem (fun h0 => hne h0.symm))
      · exact h0.symm
  · have ht := tol_nonneg m n sv h.nonneg
    rw [roundtrip_product A U sv V h]
    conv_lhs => rw [h.factor]
    rw [← Matrix.sub_mul, ← Matrix.mul_sub, rectDiag_sub]
    apply l2_opNorm_le_of_sum_sq _ _ ht
    intro x
    apply sum_sq_sandwich_le U V h.orthoU h.orthoV _ _ _ x
    intro i
    by_cases hgt : sv.getD i 0 > tol m n sv
    · rw [if_pos hgt, sub_self, abs_zero]
      exact ht
    · rw [if_neg hgt, sub_zero, abs_of_nonneg (getD_nonneg sv h.nonneg i)]
      exact not_lt.mp hgt

/-- C1, witness: the 1 x 2 matrix `[3 4]`, whose only singular value is 5. -/
theorem pinv_roundtrip_witness :
    ∃ P : Matrix (Fin 2) (Fin 1) ℝ,
      pinv (JacobiSVD.full (1 : Matrix (Fin 1) (Fin 1) ℝ) [5] (exampleRotation : Matrix _ _ ℝ))
        ⟨1, 2, exampleRow⟩ = .ok ⟨2, 1, P⟩ ∧
      P = (exampleRotation : Matrix _ _ ℝ)
          * (rectDiag 2 1 (fun i =>
              if ([5] : VectorXd ℝ).getD i 0 > tol 1 2 [5] then 1 / ([5] : VectorXd ℝ).getD i 0
              else 0)
            * (1 : Matrix (Fin 1) (Fin 1) ℝ).transpose) ∧
      ((∀ s ∈ ([5] : VectorXd ℝ), s ≠ 0 → s > tol 1 2 [5]) →
        (exampleRow : Matrix _ _ ℝ) * P * exampleRow = exampleRow) ∧
      ‖(exampleRow : Matrix _ _ ℝ) - exampleRow * P * exampleRow‖ ≤ tol 1 2 [5] :=
  pinv_roundtrip (exampleRow : Matrix _ _ ℝ) 1 [5] exampleRotation
    (by decide) (by decide) isSVD_exampleRow

end SpectralNorm

end DQ_robotics
